import Mathlib

/-!
Verification of the migration planner of neo4j-graph-tool-core.

This file gives a shallow embedding, in Lean 4, of the pure core of the
repository:

* the migrator data model (`MigrationFile`, `MigrationScripts`,
  `LocalVersionFolder`, `DatabaseModel`, `TargetVersion`) from
  `migrator/scanner.go`;
* the planning algorithm (`Planner.Plan`, `planFolder`, `planUpgrade`,
  `planDowngrade`) from `migrator/plan.go`;
* the scanner consistency checks (`scanFolder`, `scanUpDownTypeFolder`)
  from `migrator/scanner.go`, at the level of already-parsed file entries;
* the JSON rendering of `DatabaseModel` (`toJSON`, `String`, `MarshalJSON`);
* the `files` column decoding of the version reader (`queryVersion`) from
  `migrator/version.go` (neo4j v5 variant);
* the execution-step buffer (`ExecutionSteps.AddCypher` / `AddCommand`)
  from `migrator/execution.go`;
* the configuration validation (`Config.validateFoldersAndBatches`) from
  `config/config.go`.

Go maps are modelled as association lists (the Go maps involved have unique
keys); Go slices as lists; `int64` as `Int` (all arithmetic involved is
overflow-free, the only boundary constant being `math.MaxInt64`); fallible
Go functions as `Except String`.  `sort.Slice` guarantees a permutation of
the input that is sorted with respect to the supplied comparison, leaving
the relative order of equal elements unspecified; it is realised here by an
insertion sort, and every theorem proved below depends only on the
sortedness-and-permutation contract, never on the order of ties.
-/

/-- Semantic version triple, as compared by the semver library used by the
scanner (`github.com/Masterminds/semver/v3`).  Build metadata is carried
separately as the revision of a `TargetVersion` and never takes part in
version comparison; prerelease tags are not used by the migrator. -/
structure SemVer where
  major : Nat
  minor : Nat
  patch : Nat
deriving DecidableEq, Repr

/-- `semver.Version.LessThan`: lexicographic strict order on
(major, minor, patch). -/
def SemVer.lt (a b : SemVer) : Bool :=
  (a.major < b.major) ||
    (a.major == b.major &&
      ((a.minor < b.minor) || (a.minor == b.minor && a.patch < b.patch)))

/-- `semver.Version.String`, for the versions (no prerelease, no metadata)
the migrator manipulates. -/
def SemVer.str (v : SemVer) : String :=
  toString v.major ++ "." ++ toString v.minor ++ "." ++ toString v.patch

/-- Insertion step of the insertion sort realising `sort.Slice`. -/
def sortInsert (le : α → α → Bool) (x : α) : List α → List α
  | [] => [x]
  | y :: ys => if le x y then x :: y :: ys else y :: sortInsert le x ys

/-- Insertion sort realising the `sort.Slice` contract: the output is a
permutation of the input, sorted with respect to `le`. -/
def sortBy (le : α → α → Bool) : List α → List α
  | [] => []
  | x :: xs => sortInsert le x (sortBy le xs)

/-- `FileType` from `migrator/scanner.go`. -/
inductive FileType where
  | Cypher
  | Command
deriving DecidableEq, Repr

/-- `MigrationFile` from `migrator/scanner.go`: one migration artifact.
`Timestamp` is the `int64` commit number parsed from the file name. -/
structure MigrationFile where
  FolderName : String
  Path : String
  fileType : FileType
  Timestamp : Int
  IsDowngrade : Bool
  IsSnapshot : Bool
deriving DecidableEq, Repr

/-- `MigrationScripts` from `migrator/scanner.go`: the up and down file
slices of one folder at one version. -/
structure MigrationScripts where
  Up : List MigrationFile
  Down : List MigrationFile
deriving DecidableEq, Repr

/-- `MigrationScripts.SortUpFiles`: `sort.Slice` ascending by timestamp. -/
def MigrationScripts.sortUp (l : List MigrationFile) : List MigrationFile :=
  sortBy (fun a b => decide (a.Timestamp ≤ b.Timestamp)) l

/-- `MigrationScripts.SortDownFiles`: `sort.Slice` descending by
timestamp. -/
def MigrationScripts.sortDown (l : List MigrationFile) : List MigrationFile :=
  sortBy (fun a b => decide (b.Timestamp ≤ a.Timestamp)) l

/-- `MigrationScripts.ContainsMigrations`: at least one up or down file
(the receiver is never nil at this call site in `Plan`). -/
def MigrationScripts.containsMigrations (ms : MigrationScripts) : Bool :=
  !ms.Up.isEmpty || !ms.Down.isEmpty

/-- `MigrationScripts.Add`: append the scripts of `in` (a nil `in`
pointer, here `none`, is a no-op). -/
def MigrationScripts.add (ms : MigrationScripts) :
    Option MigrationScripts → MigrationScripts
  | none => ms
  | some inc => ⟨ms.Up ++ inc.Up, ms.Down ++ inc.Down⟩

/-- `LocalVersionFolder` from `migrator/scanner.go`.  `ExtraFolders` and
`Snapshots` are Go maps with unique keys, modelled as association lists;
`SchemaFolder` is a pointer that is non-nil in every folder the scanner
produces (`scanSchemaAndExtraFolders` always fills it in). -/
structure LocalVersionFolder where
  Version : SemVer
  SchemaFolder : MigrationScripts
  ExtraFolders : List (String × MigrationScripts)
  Snapshots : List (String × MigrationFile)
deriving DecidableEq, Repr

/-- `LocalFolders.SortByVersion`: `sort.Slice` ascending by semver
version (the comparison is `Version.LessThan`). -/
def LocalFolders.sortByVersion (lf : List LocalVersionFolder) :
    List LocalVersionFolder :=
  sortBy (fun a b => !(SemVer.lt b.Version a.Version)) lf

/-- `DatabaseGraphVersion` from `migrator/scanner.go`.  `FileTimestamps`
is a Go `map[int64]bool` to which the code only ever writes the value
`true` (see `queryVersion` and the test fixtures), so it is modelled as
the list of its keys. -/
structure DatabaseGraphVersion where
  Version : SemVer
  FileTimestamps : List Int
deriving DecidableEq, Repr

/-- `DatabaseModel`: Go map folder name to applied versions, modelled as
an association list with unique keys. -/
def DatabaseModel := List (String × List DatabaseGraphVersion)

/-- `DatabaseModel.GetFileTimestamps`: the timestamps of the first entry
of the folder whose version equals `version`; `none` models the nil map
returned when the folder or the version is absent. -/
def DatabaseModel.GetFileTimestamps (dbm : DatabaseModel) (folder : String)
    (version : SemVer) : Option (List Int) :=
  match dbm.lookup folder with
  | none => none
  | some folderVersion =>
      match folderVersion.find? (fun v => version == v.Version) with
      | none => none
      | some v => some v.FileTimestamps

/-- Lookup in the (possibly nil) timestamp map: a Go map read with a
missing key or a nil map yields `false`. -/
def DatabaseModel.executed (dbm : DatabaseModel) (folder : String)
    (version : SemVer) (ts : Int) : Bool :=
  ((dbm.GetFileTimestamps folder version).getD []).contains ts

/-- `DatabaseModel.ContainsHigherVersion`. -/
def DatabaseModel.ContainsHigherVersion (dbm : DatabaseModel)
    (folder : String) (version : SemVer) : Bool :=
  match dbm.lookup folder with
  | none => false
  | some folderVersion =>
      folderVersion.any (fun v => SemVer.lt version v.Version)

/-- `DatabaseModel.HasAnyVersion`: some folder has a version with a
non-empty `FileTimestamps` map. -/
def DatabaseModel.HasAnyVersion (dbm : DatabaseModel) : Bool :=
  dbm.any (fun f => f.2.any (fun gv => !gv.FileTimestamps.isEmpty))

/-- `TargetVersion` from `migrator/scanner.go`: `Version` is a pointer
(`none` models nil) and `Revision` an `int64`. -/
structure TargetVersion where
  Version : Option SemVer
  Revision : Int
deriving DecidableEq, Repr

/-- A target as seen by `planFolder`: `Plan` replaces a target whose
`Version` pointer is nil by a nil target before planning, so inside the
planning loop the version is always present. -/
structure PlanTarget where
  Version : SemVer
  Revision : Int
deriving DecidableEq, Repr

/-- The normalisation at the top of `Plan`: a nil target, or a target
with a nil version, becomes `none`. -/
def normalizeTarget : Option TargetVersion → Option PlanTarget
  | none => none
  | some t =>
      match t.Version with
      | none => none
      | some v => some ⟨v, t.Revision⟩

/-- `math.MaxInt64`. -/
def maxInt64 : Int := 9223372036854775807

/-- `Planner.planUpgrade` from `migrator/plan.go`: keep, in order, every
up file with timestamp at most the cap (the revision, or `math.MaxInt64`
when the revision is zero) that was not executed yet. -/
def planUpgrade (folderScriptsUp : List MigrationFile)
    (executed : Int → Bool) (targetCommit : Int) : List MigrationFile :=
  let cap : Int := if targetCommit == 0 then maxInt64 else targetCommit
  folderScriptsUp.filter
    (fun f => decide (f.Timestamp ≤ cap) && !(executed f.Timestamp))

/-- `Planner.planDowngrade` from `migrator/plan.go`: keep, in order,
every down file with timestamp above the cap that was executed. -/
def planDowngrade (folderScriptsDown : List MigrationFile)
    (executed : Int → Bool) (targetCommit : Int) : List MigrationFile :=
  let cap : Int := if targetCommit == 0 then maxInt64 else targetCommit
  folderScriptsDown.filter
    (fun f => decide (cap < f.Timestamp) && executed f.Timestamp)

/-- `Planner.planFolder` from `migrator/plan.go`.  The `runOutdated` and
`preventRollback` knobs are the compile-time constants `false` of the
source and are folded in.  A nil `folderScripts` yields nil (`none`). -/
def planFolder (folderName : String) (folderVersion : SemVer)
    (folderScripts : Option MigrationScripts) (dbm : DatabaseModel)
    (targetVersion : Option PlanTarget) : Option MigrationScripts :=
  match folderScripts with
  | none => none
  | some scripts =>
      let executed := fun ts => dbm.executed folderName folderVersion ts
      some (match targetVersion with
        | none =>
            -- target nil falls through into the less-than case of the switch
            if dbm.ContainsHigherVersion folderName folderVersion then ⟨[], []⟩
            else ⟨planUpgrade scripts.Up executed 0, []⟩
        | some t =>
            if SemVer.lt folderVersion t.Version then
              if dbm.ContainsHigherVersion folderName folderVersion then ⟨[], []⟩
              else ⟨planUpgrade scripts.Up executed 0, []⟩
            else if folderVersion = t.Version then
              ⟨planUpgrade scripts.Up executed t.Revision,
               planDowngrade scripts.Down executed t.Revision⟩
            else
              -- folderVersion greater than the target: roll the version back
              ⟨[], planDowngrade scripts.Down executed (-1)⟩)

/-- `config.SchemaFolder`. -/
structure SchemaFolderCfg where
  FolderName : String
  MigrationType : String
  NodeLabels : List String
deriving DecidableEq, Repr

/-- `config.FolderDetail`. -/
structure FolderDetail where
  MigrationType : String
  NodeLabels : List String
deriving DecidableEq, Repr

/-- `config.BatchDetail`. -/
structure BatchDetail where
  Folders : List String
deriving DecidableEq, Repr

/-- `config.Planner`: the planner section of the configuration.  The Go
maps `Batches` and `Folders` hold pointers, whose nil value is modelled
as `none`; both maps have unique keys. -/
structure PlannerCfg where
  BaseFolder : String
  Batches : List (String × Option BatchDetail)
  SchemaFolder : SchemaFolderCfg
  Folders : List (String × Option FolderDetail)
deriving DecidableEq, Repr

/-- `config.Config` (the supervisor section plays no role in planning and
its validation accepts an absent supervisor section, so it is omitted). -/
structure Config where
  Planner : PlannerCfg
deriving DecidableEq, Repr

/-- The batch resolution at the top of `Planner.Plan`: `schema` is the
implicit batch with no auxiliary folders; any other name must be a
non-nil entry of `Planner.Batches`. -/
def resolveBatch (cfg : Config) (batch : String) : Except String (List String) :=
  if batch = "schema" then Except.ok []
  else
    match cfg.Planner.Batches.lookup batch with
    | some (some b) => Except.ok b.Folders
    | _ => Except.error ("unknown batch name \x27" ++ batch ++ "\x27")

/-- The target condition of the snapshot short-circuit in `Planner.Plan`:
no target, or the folder version strictly below the target version, or
equal to it with revision zero. -/
def snapTargetCond (tv : Option PlanTarget) (v : SemVer) : Bool :=
  match tv with
  | none => true
  | some t => SemVer.lt v t.Version || (v == t.Version && t.Revision == 0)

/-- The guard of the snapshot short-circuit in `Planner.Plan`
(`preventSnapshot` is the compile-time constant `false` of the source and
is folded in): the database records no version at all, the folder carries
a snapshot for the chosen batch, and the target condition holds. -/
def snapQualify (dbm : DatabaseModel) (tv : Option PlanTarget)
    (batch : String) (lf : LocalVersionFolder) : Option MigrationFile :=
  if dbm.HasAnyVersion then none
  else
    match lf.Snapshots.lookup batch with
    | none => none
    | some snap => if snapTargetCond tv lf.Version then some snap else none

/-- One per-version plan of `Planner.Plan` (the local `versionPlan`
struct). -/
structure VersionPlan where
  scripts : MigrationScripts
  version : SemVer
deriving DecidableEq, Repr

/-- The per-version union of `Planner.Plan`: the schema folder first,
then the batch folders in declaration order (`MigrationScripts.Add` of
each `planFolder` result). -/
def planVersionScripts (cfg : Config) (batchFolders : List String)
    (dbm : DatabaseModel) (tv : Option PlanTarget)
    (lf : LocalVersionFolder) : MigrationScripts :=
  let base :=
    (planFolder cfg.Planner.SchemaFolder.FolderName lf.Version
      (some lf.SchemaFolder) dbm tv).getD ⟨[], []⟩
  batchFolders.foldl
    (fun acc bf =>
      acc.add (planFolder bf lf.Version (lf.ExtraFolders.lookup bf) dbm tv))
    base

/-- One iteration of the version loop of `Planner.Plan`: either the
snapshot short-circuit resets the running plan to the single snapshot, or
the per-version scripts are appended when they contain any migration. -/
def planStep (cfg : Config) (batchFolders : List String)
    (dbm : DatabaseModel) (tv : Option PlanTarget) (batch : String)
    (plan : List VersionPlan) (lf : LocalVersionFolder) : List VersionPlan :=
  match snapQualify dbm tv batch lf with
  | some snap => [⟨⟨[snap], []⟩, lf.Version⟩]
  | none =>
      let filesToRun := planVersionScripts cfg batchFolders dbm tv lf
      if filesToRun.containsMigrations then plan ++ [⟨filesToRun, lf.Version⟩]
      else plan

/-- The version loop of `Planner.Plan` over the sorted catalog. -/
def buildPlans (cfg : Config) (batchFolders : List String)
    (dbm : DatabaseModel) (tv : Option PlanTarget) (batch : String)
    (sorted : List LocalVersionFolder) : List VersionPlan :=
  sorted.foldl (planStep cfg batchFolders dbm tv batch) []

/-- The upgrade phase of `Planner.Plan`: for each per-version plan in
ascending order, sort its up files by timestamp and call the builder on
each with the version of the plan entry. -/
def upCalls (plans : List VersionPlan) : List (MigrationFile × SemVer) :=
  (plans.map (fun p =>
    (MigrationScripts.sortUp p.scripts.Up).map (fun f => (f, p.version)))).flatten

/-- The downgrade phase of `Planner.Plan`: per-version plans in reverse
order, down files sorted descending by timestamp. -/
def downCalls (plans : List VersionPlan) : List (MigrationFile × SemVer) :=
  (plans.reverse.map (fun p =>
    (MigrationScripts.sortDown p.scripts.Down).map (fun f => (f, p.version)))).flatten

/-- The out-of-range guard of `Planner.Plan`: a non-empty (sorted)
catalog whose highest version is below the target version is an error. -/
def targetOutOfRange (sorted : List LocalVersionFolder)
    (tv : Option PlanTarget) : Bool :=
  match sorted.getLast?, tv with
  | some last, some t => SemVer.lt last.Version t.Version
  | _, _ => false

/-- `Planner.Plan` from `migrator/plan.go`, returning the sequence of
`(file, version)` pairs the builder is invoked on.  A builder that fails
aborts the iteration over exactly this sequence, so a successful `Plan`
run performs these calls in this order. -/
def Plan (cfg : Config) (localFolders : List LocalVersionFolder)
    (dbm : DatabaseModel) (targetVersion : Option TargetVersion)
    (batch : String) : Except String (List (MigrationFile × SemVer)) :=
  match resolveBatch cfg batch with
  | Except.error e => Except.error e
  | Except.ok batchFolders =>
      let sorted := LocalFolders.sortByVersion localFolders
      let tv := normalizeTarget targetVersion
      if targetOutOfRange sorted tv then
        Except.error
          ("specified target " ++
            (match tv with | some t => t.Version.str | none => "") ++
            " version does not exist")
      else
        let plans := buildPlans cfg batchFolders dbm tv batch sorted
        Except.ok (upCalls plans ++ downCalls plans)

/-- Ascending `sort.Slice` on `int64` timestamps used by `toJSON`. -/
def sortInt (l : List Int) : List Int :=
  sortBy (fun a b => decide (a ≤ b)) l

/-- The per-version file list of `DatabaseModel.toJSON`: the sorted
executed timestamps rendered as a JSON array, with the leading elements
replaced by the summary string when the count reaches `limitFiles`.  The
rendering follows the Go loop exactly: the summary is written when
`executedCnt >= limitFiles`, the loop then starts at
`executedCnt - limitFiles`, and a comma is written before element `i`
only when `i > 0`. -/
def filesJSON (limitFiles : Int) (fileTimestamps : List Int) : String :=
  let executed := sortInt fileTimestamps
  let executedCnt : Int := executed.length
  let summary :=
    if limitFiles ≤ executedCnt then
      "\"... " ++ toString (executedCnt - limitFiles) ++ " more\""
    else ""
  let startAt : Int := if limitFiles ≤ executedCnt then executedCnt - limitFiles else 0
  let elems := String.join (executed.enum.map (fun p =>
    if (p.1 : Int) < startAt then ""
    else (if 0 < p.1 then "," else "") ++ toString p.2))
  "[" ++ summary ++ elems ++ "]"

/-- `DatabaseModel.toJSON` from `migrator/scanner.go`.  Go iterates the
two maps in unspecified order; the model fixes the association-list
order, which the per-entry properties proved below do not depend on. -/
def DatabaseModel.toJSON (dbm : DatabaseModel) (limitFiles : Int) : String :=
  "\x7b" ++
    String.intercalate ","
      (dbm.map (fun f =>
        "\"" ++ f.1 ++ "\":\x7b" ++
          String.intercalate ","
            (f.2.map (fun ver =>
              "\"" ++ ver.Version.str ++ "\":" ++
                filesJSON limitFiles ver.FileTimestamps)) ++
          "\x7d")) ++
    "\x7d"

/-- `DatabaseModel.String`: the compact display form, `toJSON 3`. -/
def DatabaseModel.str (dbm : DatabaseModel) : String :=
  dbm.toJSON 3

/-- `DatabaseModel.MarshalJSON`: `toJSON math.MaxInt` (64-bit build). -/
def DatabaseModel.marshalJSON (dbm : DatabaseModel) : String :=
  dbm.toJSON maxInt64

/-- A dynamically-typed value of a `files` list in a result record of the
version query (`queryVersion` in `migrator/version.go`, neo4j v5 driver).
The driver delivers `int64` for integer properties and `float64` for
floating-point ones; the float payload is written as the `int64` value the
conversion `int64(fileTime)` produces, since only that conversion result
is ever consumed.  `vString` and `vBool` model the remaining dynamic
types the type switch can encounter. -/
inductive DBValue where
  | vInt (i : Int)
  | vFloat (i : Int)
  | vString (s : String)
  | vBool (b : Bool)
deriving DecidableEq, Repr

/-- The `%T` verb of the Go error message: the dynamic type name. -/
def DBValue.typeName : DBValue → String
  | .vInt _ => "int64"
  | .vFloat _ => "float64"
  | .vString _ => "string"
  | .vBool _ => "bool"

/-- The `%v` verb of the Go error message: the default rendering. -/
def DBValue.display : DBValue → String
  | .vInt i => toString i
  | .vFloat i => toString i
  | .vString s => s
  | .vBool b => if b then "true" else "false"

/-- Whether the type switch of `queryVersion` accepts the value. -/
def DBValue.isNumeric : DBValue → Bool
  | .vInt _ => true
  | .vFloat _ => true
  | _ => false

/-- The `int64` the type switch stores for an accepted value. -/
def DBValue.toInt64 : DBValue → Int
  | .vInt i => i
  | .vFloat i => i
  | _ => 0

/-- `fmt.Errorf("file number | is of type | expect int64")` message. -/
def fileNumberError (v : DBValue) : String :=
  "file number \x27" ++ v.display ++ "\x27 is of type " ++ v.typeName ++
    ", expect int64"

/-- Insertion into the Go map `files` (`files[fileTime] = true`): a map
write is idempotent on the key set. -/
def goMapInsert (l : List Int) (x : Int) : List Int :=
  if l.contains x then l else l ++ [x]

/-- The `files` loop of `queryVersion` (neo4j v5 variant,
`migrator/version.go`): `int64` elements are stored, `float64` elements
are converted with `int64(..)` and stored, anything else aborts with the
error naming the value and its dynamic type. -/
def collectFilesAux (acc : List Int) : List DBValue → Except String (List Int)
  | [] => Except.ok acc
  | v :: rest =>
      match v with
      | .vInt i => collectFilesAux (goMapInsert acc i) rest
      | .vFloat i => collectFilesAux (goMapInsert acc i) rest
      | other => Except.error (fileNumberError other)

/-- The decoding of one `files` list by `queryVersion`. -/
def collectFiles (rawFiles : List DBValue) : Except String (List Int) :=
  collectFilesAux [] rawFiles

/-- The expected success value of `collectFiles`: every element kept
(converted for floats), deduplicated by the map writes. -/
def collectFilesSpec (rawFiles : List DBValue) : List Int :=
  rawFiles.foldl (fun acc v => goMapInsert acc v.toInt64) []

/-- `ExecutionStep` from `migrator/execution.go`: either a cypher buffer
or a command argument vector (exactly one of the two fields is set by the
constructors `AddCypher` and `AddCommand`). -/
inductive ExecutionStep where
  | cypher (buf : String)
  | command (args : List String)
deriving DecidableEq, Repr

/-- `ExecutionStep.IsCypher`. -/
def ExecutionStep.isCypher : ExecutionStep → Bool
  | .cypher _ => true
  | .command _ => false

/-- `ExecutionSteps`: the append-only step sequence. -/
abbrev ExecutionSteps := List ExecutionStep

/-- `ExecutionSteps.AddCypher`: a no-op without arguments; otherwise the
strings are written into the buffer of the last step when that step is a
cypher step, and a fresh cypher step is appended otherwise. -/
def ExecutionSteps.addCypher (e : ExecutionSteps) (cypher : List String) :
    ExecutionSteps :=
  if cypher.isEmpty then e
  else
    match e.getLast? with
    | some (.cypher buf) =>
        e.dropLast ++ [.cypher (buf ++ String.join cypher)]
    | _ => e ++ [.cypher (String.join cypher)]

/-- `ExecutionSteps.AddCommand`: a no-op on an empty argument vector;
otherwise a new command step is appended. -/
def ExecutionSteps.addCommand (e : ExecutionSteps) (args : List String) :
    ExecutionSteps :=
  if args.isEmpty then e else e ++ [.command args]

/-- A call into the step buffer: the two mutating methods. -/
inductive StepOp where
  | addCypher (cypher : List String)
  | addCommand (args : List String)

/-- Apply one buffer method. -/
def ExecutionSteps.applyOp (e : ExecutionSteps) : StepOp → ExecutionSteps
  | .addCypher c => e.addCypher c
  | .addCommand a => e.addCommand a

/-- Apply a sequence of buffer methods, starting from the given state. -/
def ExecutionSteps.applyOps (e : ExecutionSteps) (ops : List StepOp) :
    ExecutionSteps :=
  ops.foldl ExecutionSteps.applyOp e

/-- The step-sequence invariant: no two adjacent cypher steps, and every
command step holds a non-empty argument vector. -/
def ExecutionSteps.Inv (e : ExecutionSteps) : Prop :=
  List.Chain' (fun a b => ¬(a.isCypher = true ∧ b.isCypher = true)) e ∧
    ∀ s ∈ e, ∀ args, s = ExecutionStep.command args → args ≠ []

/-- `stringInArray` from `config/config.go`. -/
def stringInArray (arrayString : List String) (searchString : String) : Bool :=
  arrayString.contains searchString

/-- `duplicateElements` from `config/config.go`: the first label that
occurs twice, if any. -/
def duplicateElements (nodes : List String) : Option String :=
  let rec go (uniqueLabels : List String) : List String → Option String
    | [] => none
    | label :: rest =>
        if uniqueLabels.contains label then some label
        else go (uniqueLabels ++ [label]) rest
  go [] nodes

/-- `migrationTypes` from `config/config.go`. -/
def migrationTypes : List String := ["change", "up_down"]

/-- The folder loop of `Config.validateFoldersAndBatches`: checks one
folder entry, accumulating the set of declared folder names. -/
def validateFolderEntry (schemaFolderName : String)
    (entry : String × Option FolderDetail) : Except String Unit :=
  let folderName := entry.1
  if folderName = "" then
    Except.error "name of folder in Planner.Folders can\x27t be an empty string"
  else if folderName = schemaFolderName then
    Except.error ("folder \x27" ++ folderName ++
      "\x27 is used as schema folder and cannot be used again in planner.folders")
  else
    match entry.2 with
    | none => Except.error ("empty configuration for folder \x27" ++ folderName ++ "\x27")
    | some folderDetail =>
        if !(stringInArray migrationTypes folderDetail.MigrationType) then
          Except.error ("in folder \x27" ++ folderName ++
            "\x27 migration_type must be \x27change\x27 or \x27up_down\x27")
        else
          match duplicateElements folderDetail.NodeLabels with
          | some label => Except.error ("duplicate label \x27" ++ label ++
              "\x27 in folder named \x27" ++ folderName ++ "\x27")
          | none => Except.ok ()

/-- The batch loop of `Config.validateFoldersAndBatches`. -/
def validateBatchEntry (schemaFolderName : String)
    (possibleFolders : List String)
    (entry : String × Option BatchDetail) : Except String Unit :=
  let batchName := entry.1
  if batchName = "" then
    Except.error "name of batch in Planner.Batches can\x27t be an empty string"
  else
    match entry.2 with
    | none => Except.error ("empty configuration for batch \x27" ++ batchName ++ "\x27")
    | some batchDetail =>
        let rec go : List String → Except String Unit
          | [] => Except.ok ()
          | folder :: rest =>
              if folder = schemaFolderName then
                Except.error ("folder \x27" ++ folder ++
                  "\x27 is schema folder and thus implicit, cannot be specified in batch \x27" ++
                  batchName ++ "\x27")
              else if !(possibleFolders.contains folder) then
                Except.error ("folder \x27" ++ folder ++ "\x27 in batch \x27" ++
                  batchName ++ "\x27 is not defined in planner.folders")
              else go rest
        go batchDetail.Folders

/-- Run a check over every entry of a list, stopping at the first
error (the Go loops return on the first failing entry). -/
def firstError (check : α → Except String Unit) : List α → Except String Unit
  | [] => Except.ok ()
  | x :: rest =>
      match check x with
      | Except.error e => Except.error e
      | Except.ok () => firstError check rest

/-- `Config.validateFoldersAndBatches` from `config/config.go`: every
folder entry is checked (empty names, the schema folder name, a nil
detail, the migration type, duplicate labels), then every batch entry is
checked against the set of declared folder names.  Go iterates the two
maps in unspecified order; the model fixes the association-list order,
which only selects which of several violations is reported first. -/
def Config.validateFoldersAndBatches (c : Config) : Except String Unit :=
  match firstError (validateFolderEntry c.Planner.SchemaFolder.FolderName)
      c.Planner.Folders with
  | Except.error e => Except.error e
  | Except.ok () =>
      let possibleFolders :=
        (c.Planner.Folders.filter (fun f => f.2.isSome)).map (fun f => f.1)
      firstError
        (validateBatchEntry c.Planner.SchemaFolder.FolderName possibleFolders)
        c.Planner.Batches

/-- The duplicate-timestamp accumulation loop of `Scanner.scanFolder`
(`migrator/scanner.go`), over the already-parsed migration files of one
folder-version directory (directories, hidden files and the name-pattern
match, which abort the scan independently of the pairing property, are
outside this model).  Each file joins the down or the up slice according
to its direction; a timestamp already present in that slice is a fatal
duplicate. -/
def scanFolderAux (dirPath : String) (scripts : MigrationScripts) :
    List MigrationFile → Except String MigrationScripts
  | [] => Except.ok scripts
  | mf :: rest =>
      if mf.IsDowngrade then
        if scripts.Down.any (fun v => v.Timestamp == mf.Timestamp) then
          Except.error ("can\x27t have two down commit match \x27" ++
            toString mf.Timestamp ++ "\x27 in folder \x27" ++ dirPath ++ "\x27")
        else scanFolderAux dirPath ⟨scripts.Up, scripts.Down ++ [mf]⟩ rest
      else
        if scripts.Up.any (fun v => v.Timestamp == mf.Timestamp) then
          Except.error ("can\x27t have two commit match \x27" ++
            toString mf.Timestamp ++ "\x27 in folder \x27" ++ dirPath ++ "\x27")
        else scanFolderAux dirPath ⟨scripts.Up ++ [mf], scripts.Down⟩ rest

/-- `Scanner.scanFolder`: accumulate the files with the duplicate checks,
then sort the up files ascending and the down files descending by
timestamp. -/
def scanFolder (dirPath : String) (files : List MigrationFile) :
    Except String MigrationScripts :=
  match scanFolderAux dirPath ⟨[], []⟩ files with
  | Except.error e => Except.error e
  | Except.ok scripts =>
      Except.ok ⟨MigrationScripts.sortUp scripts.Up,
        MigrationScripts.sortDown scripts.Down⟩

/-- The mirrored pairing loop of `Scanner.scanUpDownTypeFolder`: for each
index `i`, `Up[i].Timestamp` must equal `Down[d-i-1].Timestamp`.  Since
both slices have the same length `d` at this point, `Down[d-i-1]` is
element `i` of the reversed down slice, so the loop walks the up slice
and the reversed down slice in parallel. -/
def checkUpDownPairs : List MigrationFile → List MigrationFile →
    Except String Unit
  | [], _ => Except.ok ()
  | u :: us, r :: rs =>
      if u.Timestamp == r.Timestamp then checkUpDownPairs us rs
      else Except.error ("inconsistent state: missing down part of \x27" ++
        u.Path ++ "\x27")
  | u :: _, [] =>
      Except.error ("inconsistent state: missing down part of \x27" ++
        u.Path ++ "\x27")

/-- `Scanner.scanUpDownTypeFolder` from `migrator/scanner.go`: scan the
folder, require as many up as down scripts, and require the mirrored
timestamp pairing. -/
def scanUpDownTypeFolder (dirPath : String) (files : List MigrationFile) :
    Except String MigrationScripts :=
  match scanFolder dirPath files with
  | Except.error e => Except.error e
  | Except.ok scripts =>
      let u := scripts.Up.length
      let d := scripts.Down.length
      if u ≠ d then
        Except.error ("inconsistent state in \x27" ++ dirPath ++ "\x27: found " ++
          toString u ++ " up and " ++ toString d ++ " down script")
      else
        match checkUpDownPairs scripts.Up scripts.Down.reverse with
        | Except.error e => Except.error e
        | Except.ok () => Except.ok scripts

/-- Non-decreasing order on builder calls by (version, timestamp):
strictly older version, or the same version with a timestamp that is not
larger. -/
def VersionTsLe (a b : MigrationFile × SemVer) : Prop :=
  SemVer.lt a.2 b.2 = true ∨ (a.2 = b.2 ∧ a.1.Timestamp ≤ b.1.Timestamp)

/-- Non-increasing order on builder calls by (version, timestamp). -/
def VersionTsGe (a b : MigrationFile × SemVer) : Prop :=
  SemVer.lt b.2 a.2 = true ∨ (a.2 = b.2 ∧ b.1.Timestamp ≤ a.1.Timestamp)

/-- A configuration declaring an auxiliary folder named `snapshots`
(otherwise well-formed). -/
def cfgSnapshotsFolder : Config :=
  ⟨{ BaseFolder := "import",
     Batches := [],
     SchemaFolder := ⟨"schema", "up_down", ["GraphToolMigration", "SchemaVersion"]⟩,
     Folders := [("snapshots", some ⟨"change", ["SnapshotVersion"]⟩)] }⟩

/-- A configuration declaring an auxiliary folder with an empty name. -/
def cfgEmptyFolderName : Config :=
  ⟨{ BaseFolder := "import",
     Batches := [],
     SchemaFolder := ⟨"schema", "up_down", ["GraphToolMigration", "SchemaVersion"]⟩,
     Folders := [("", none)] }⟩

/-- A minimal configuration with only the schema folder. -/
def cfgSchemaOnly : Config :=
  ⟨{ BaseFolder := "import",
     Batches := [],
     SchemaFolder := ⟨"schema", "up_down", ["GraphToolMigration", "SchemaVersion"]⟩,
     Folders := [] }⟩

/-- Example catalog entries for concrete witnesses. -/
def mfUpA : MigrationFile :=
  ⟨"schema", "schema/v1.0.0/100_up_a.cypher", FileType.Cypher, 100, false, false⟩

def mfUpB : MigrationFile :=
  ⟨"schema", "schema/v1.0.1/200_up_b.cypher", FileType.Cypher, 200, false, false⟩

def snapshotA : MigrationFile :=
  ⟨"snapshots", "snapshots/schema_v1.0.0.cypher", FileType.Cypher, 0, false, true⟩

def folderA : LocalVersionFolder :=
  ⟨⟨1, 0, 0⟩, ⟨[mfUpA], []⟩, [], [("schema", snapshotA)]⟩

def folderB : LocalVersionFolder :=
  ⟨⟨1, 0, 1⟩, ⟨[mfUpB], []⟩, [], []⟩

/-- Scanner well-formedness of one catalog entry: up slices hold only up
files, down slices only down files, and snapshot artifacts are up files
(`parseFileName` sets `IsDowngrade` from the file-name direction and
`scanFolder` routes each file by that flag; `addSnapshotsTo` builds
snapshot files with `IsDowngrade` left `false`). -/
def LocalVersionFolder.WellFormed (lf : LocalVersionFolder) : Prop :=
  (∀ f ∈ lf.SchemaFolder.Up, f.IsDowngrade = false) ∧
  (∀ f ∈ lf.SchemaFolder.Down, f.IsDowngrade = true) ∧
  (∀ p ∈ lf.ExtraFolders,
    (∀ f ∈ p.2.Up, f.IsDowngrade = false) ∧
    (∀ f ∈ p.2.Down, f.IsDowngrade = true)) ∧
  (∀ p ∈ lf.Snapshots, p.2.IsDowngrade = false)

/-- Duplicate-version catalog entries: the scanner parses directory
names with the lenient `semver.NewVersion`, so the directories `v1.0`
and `v1.0.0` both scan to version 1.0.0 and yield two catalog entries
with equal versions.  Each directory on its own passes the `up_down`
pairing checks. -/
def dupUpA : MigrationFile :=
  ⟨"schema", "schema/v1.0/1_up_a.cypher", FileType.Cypher, 1, false, false⟩

def dupUpB : MigrationFile :=
  ⟨"schema", "schema/v1.0/5_up_b.cypher", FileType.Cypher, 5, false, false⟩

def dupUpC : MigrationFile :=
  ⟨"schema", "schema/v1.0.0/2_up_c.cypher", FileType.Cypher, 2, false, false⟩

def dupDownA : MigrationFile :=
  ⟨"schema", "schema/v1.0/1_down_a.cypher", FileType.Cypher, 1, true, false⟩

def dupDownB : MigrationFile :=
  ⟨"schema", "schema/v1.0/5_down_b.cypher", FileType.Cypher, 5, true, false⟩

def dupDownC : MigrationFile :=
  ⟨"schema", "schema/v1.0.0/2_down_c.cypher", FileType.Cypher, 2, true, false⟩

/-- The catalog entry scanned from directory `v1.0`. -/
def dupFolderV10 : LocalVersionFolder :=
  ⟨⟨1, 0, 0⟩, ⟨[dupUpA, dupUpB], [dupDownB, dupDownA]⟩, [], []⟩

/-- The catalog entry scanned from directory `v1.0.0`. -/
def dupFolderV100 : LocalVersionFolder :=
  ⟨⟨1, 0, 0⟩, ⟨[dupUpC], [dupDownC]⟩, [], []⟩

/-! ## Theorems -/

theorem SemVer.lt_iff (a b : SemVer) :
    SemVer.lt a b = true ↔
      a.major < b.major ∨
        (a.major = b.major ∧
          (a.minor < b.minor ∨ (a.minor = b.minor ∧ a.patch < b.patch))) := by
  simp [SemVer.lt, Nat.lt_iff_add_one_le]

theorem SemVer.lt_irrefl (a : SemVer) : SemVer.lt a a = false := by
  simp [SemVer.lt]

theorem SemVer.lt_asymm {a b : SemVer} (h : SemVer.lt a b = true) :
    SemVer.lt b a = false := by
  obtain ⟨a1, a2, a3⟩ := a
  obtain ⟨b1, b2, b3⟩ := b
  simp only [SemVer.lt, Bool.or_eq_true, Bool.and_eq_true, decide_eq_true_eq,
    beq_iff_eq] at h
  rw [Bool.eq_false_iff]
  simp only [ne_eq, SemVer.lt, Bool.or_eq_true, Bool.and_eq_true,
    decide_eq_true_eq, beq_iff_eq]
  omega

theorem SemVer.lt_trans {a b c : SemVer} (hab : SemVer.lt a b = true)
    (hbc : SemVer.lt b c = true) : SemVer.lt a c = true := by
  obtain ⟨a1, a2, a3⟩ := a
  obtain ⟨b1, b2, b3⟩ := b
  obtain ⟨c1, c2, c3⟩ := c
  simp only [SemVer.lt, Bool.or_eq_true, Bool.and_eq_true, decide_eq_true_eq,
    beq_iff_eq] at hab hbc ⊢
  omega

theorem SemVer.lt_of_not_lt_of_ne {a b : SemVer} (h : SemVer.lt b a = false)
    (hne : a ≠ b) : SemVer.lt a b = true := by
  obtain ⟨a1, a2, a3⟩ := a
  obtain ⟨b1, b2, b3⟩ := b
  rw [Bool.eq_false_iff] at h
  simp only [ne_eq, SemVer.lt, Bool.or_eq_true, Bool.and_eq_true,
    decide_eq_true_eq, beq_iff_eq] at h ⊢
  simp only [ne_eq, SemVer.mk.injEq, not_and] at hne
  omega

theorem sortInsert_perm (le : α → α → Bool) (x : α) (l : List α) :
    List.Perm (sortInsert le x l) (x :: l) := by
  induction l with
  | nil => simp [sortInsert]
  | cons y ys ih =>
      by_cases h : le x y = true
      · simp [sortInsert, h]
      · simp only [sortInsert, h, Bool.false_eq_true, if_false]
        exact List.Perm.trans (List.Perm.cons y ih) (List.Perm.swap x y ys)

theorem sortBy_perm (le : α → α → Bool) (l : List α) :
    List.Perm (sortBy le l) l := by
  induction l with
  | nil => simp [sortBy]
  | cons x xs ih =>
      exact List.Perm.trans (sortInsert_perm le x (sortBy le xs))
        (List.Perm.cons x ih)

theorem sortInsert_pairwise (le : α → α → Bool)
    (htot : ∀ a b, le a b = false → le b a = true)
    (htrans : ∀ a b c, le a b = true → le b c = true → le a c = true)
    (x : α) (l : List α) (hl : l.Pairwise (fun a b => le a b = true)) :
    (sortInsert le x l).Pairwise (fun a b => le a b = true) := by
  induction l with
  | nil => simp [sortInsert]
  | cons y ys ih =>
      rcases List.pairwise_cons.mp hl with ⟨hy, hys⟩
      by_cases h : le x y = true
      · simp only [sortInsert, h, if_true]
        refine List.pairwise_cons.mpr ⟨?_, hl⟩
        intro z hz
        rcases List.mem_cons.mp hz with hz | hz
        · subst hz; exact h
        · exact htrans x y z h (hy z hz)
      · simp only [sortInsert, h, Bool.false_eq_true, if_false]
        refine List.pairwise_cons.mpr ⟨?_, ih hys⟩
        intro z hz
        have hz2 := (sortInsert_perm le x ys).mem_iff.mp hz
        rcases List.mem_cons.mp hz2 with hz3 | hz3
        · subst hz3
          exact htot z y (Bool.eq_false_iff.mpr h)
        · exact hy z hz3

theorem sortBy_pairwise (le : α → α → Bool)
    (htot : ∀ a b, le a b = false → le b a = true)
    (htrans : ∀ a b c, le a b = true → le b c = true → le a c = true)
    (l : List α) :
    (sortBy le l).Pairwise (fun a b => le a b = true) := by
  induction l with
  | nil => simp [sortBy]
  | cons x xs ih => exact sortInsert_pairwise le htot htrans x (sortBy le xs) ih

theorem sortInsert_of_le_head (le : α → α → Bool) (x : α) (l : List α)
    (h : ∀ y ∈ l.head?, le x y = true) :
    sortInsert le x l = x :: l := by
  cases l with
  | nil => rfl
  | cons y ys => simp [sortInsert, h y rfl]

/-- A list already sorted with respect to `le` is left unchanged by
`sortBy`; this lets theorems be stated over catalogs given in sorted
order. -/
theorem sortBy_eq_self (le : α → α → Bool) (l : List α)
    (h : l.Pairwise (fun a b => le a b = true)) : sortBy le l = l := by
  induction l with
  | nil => rfl
  | cons x xs ih =>
      rcases List.pairwise_cons.mp h with ⟨hx, hxs⟩
      rw [sortBy, ih hxs]
      refine sortInsert_of_le_head le x xs ?_
      intro y hy
      exact hx y (List.mem_of_mem_head? hy)

/-- C2: when the folder version equals the target version, the per-folder
plan selects as upgrades exactly the up files with timestamp at most the
cap that are not recorded as executed for this folder-version, and as
downgrades exactly the down files with timestamp above the cap that are
recorded as executed, where the cap is the target revision when non-zero
and `math.MaxInt64` when the revision is zero. -/
theorem planFolder_at_target_version (folderName : String)
    (folderVersion : SemVer) (scripts : MigrationScripts)
    (dbm : DatabaseModel) (revision : Int) :
    planFolder folderName folderVersion (some scripts) dbm
        (some ⟨folderVersion, revision⟩) =
      some
        ⟨scripts.Up.filter (fun f =>
            decide (f.Timestamp ≤ (if revision = 0 then maxInt64 else revision)) &&
              !(dbm.executed folderName folderVersion f.Timestamp)),
         scripts.Down.filter (fun f =>
            decide ((if revision = 0 then maxInt64 else revision) < f.Timestamp) &&
              dbm.executed folderName folderVersion f.Timestamp)⟩ := by
  simp only [planFolder, SemVer.lt_irrefl, Bool.false_eq_true, if_false,
    if_pos rfl, planUpgrade, planDowngrade, beq_iff_eq, if_true, eq_self_iff_true]

/-- C10: with an empty catalog and a known batch (`schema` or a declared
batch), `Plan` succeeds without a single builder call, for every database
model and every target, including targets above any existing version: the
out-of-range guard only fires on a non-empty catalog. -/
theorem Plan_empty_catalog (cfg : Config) (dbm : DatabaseModel)
    (targetVersion : Option TargetVersion) (batch : String)
    (h : batch = "schema" ∨
      ∃ b, cfg.Planner.Batches.lookup batch = some (some b)) :
    Plan cfg [] dbm targetVersion batch = Except.ok [] := by
  have hres : ∃ bf, resolveBatch cfg batch = Except.ok bf := by
    rcases h with h | ⟨b, h⟩
    · exact ⟨[], by simp [resolveBatch, h]⟩
    · by_cases hs : batch = "schema"
      · exact ⟨[], by simp [resolveBatch, hs]⟩
      · exact ⟨b.Folders, by simp [resolveBatch, hs, h]⟩
  rcases hres with ⟨bf, hres⟩
  simp [Plan, hres, LocalFolders.sortByVersion, sortBy, targetOutOfRange,
    buildPlans, upCalls, downCalls]

/-- Witness for C10: an empty catalog with a target far above anything,
on the implicit schema batch. -/
theorem Plan_empty_catalog_witness :
    Plan cfgSchemaOnly [] [] (some ⟨some ⟨9, 9, 9⟩, 5⟩) "schema" =
      Except.ok [] :=
  Plan_empty_catalog cfgSchemaOnly [] (some ⟨some ⟨9, 9, 9⟩, 5⟩) "schema"
    (Or.inl rfl)

theorem collectFilesAux_ok (l : List DBValue) :
    ∀ acc, (∀ v ∈ l, v.isNumeric = true) →
      collectFilesAux acc l =
        Except.ok (l.foldl (fun a v => goMapInsert a v.toInt64) acc) := by
  induction l with
  | nil => intro acc _; rfl
  | cons v rest ih =>
      intro acc hall
      have hv : v.isNumeric = true := hall v (List.mem_cons_self v rest)
      have hrest : ∀ x ∈ rest, x.isNumeric = true :=
        fun x hx => hall x (List.mem_cons_of_mem v hx)
      cases v with
      | vInt i => simpa [collectFilesAux, DBValue.toInt64] using ih _ hrest
      | vFloat i => simpa [collectFilesAux, DBValue.toInt64] using ih _ hrest
      | vString s => simp [DBValue.isNumeric] at hv
      | vBool b => simp [DBValue.isNumeric] at hv

theorem collectFilesAux_err (l : List DBValue) :
    ∀ acc v, l.find? (fun x => !x.isNumeric) = some v →
      collectFilesAux acc l = Except.error (fileNumberError v) := by
  induction l with
  | nil => intro acc v h; simp [List.find?] at h
  | cons x rest ih =>
      intro acc v h
      cases x with
      | vInt i =>
          rw [List.find?_cons_of_neg _ (by simp [DBValue.isNumeric])] at h
          exact ih _ v h
      | vFloat i =>
          rw [List.find?_cons_of_neg _ (by simp [DBValue.isNumeric])] at h
          exact ih _ v h
      | vString s =>
          rw [List.find?_cons_of_pos _ (by simp [DBValue.isNumeric])] at h
          cases h
          rfl
      | vBool b =>
          rw [List.find?_cons_of_pos _ (by simp [DBValue.isNumeric])] at h
          cases h
          rfl

/-- C7: the `files` decoder of the version reader keeps every 64-bit
integer element, converts every float element to a 64-bit integer, and
fails, with an error naming the offending value and its dynamic type,
exactly when some element has any other type. -/
theorem collectFiles_typeDispatch :
    (∀ l : List DBValue, (∀ v ∈ l, v.isNumeric = true) →
        collectFiles l = Except.ok (collectFilesSpec l)) ∧
    (∀ (l : List DBValue) (v : DBValue),
        l.find? (fun x => !x.isNumeric) = some v →
        collectFiles l = Except.error (fileNumberError v)) ∧
    (∀ l : List DBValue, (∃ r, collectFiles l = Except.ok r) ↔
        ∀ v ∈ l, v.isNumeric = true) := by
  refine ⟨fun l h => collectFilesAux_ok l [] h,
          fun l v h => collectFilesAux_err l [] v h, fun l => ⟨?_, ?_⟩⟩
  · rintro ⟨r, hr⟩
    by_contra hnot
    push_neg at hnot
    obtain ⟨v, hv, hnum⟩ := hnot
    have : (l.find? (fun x => !x.isNumeric)).isSome := by
      rw [List.find?_isSome]
      exact ⟨v, hv, by simp [hnum]⟩
    obtain ⟨w, hw⟩ := Option.isSome_iff_exists.mp this
    rw [collectFiles, collectFilesAux_err l [] w hw] at hr
    cases hr
  · intro h
    exact ⟨collectFilesSpec l, collectFilesAux_ok l [] h⟩

/-- Witness for C7: a list holding an integer and then a string fails
naming the string and its type. -/
theorem collectFiles_typeDispatch_witness :
    collectFiles [DBValue.vInt 5, DBValue.vString "hello"] =
      Except.error
        "file number \x27hello\x27 is of type string, expect int64" :=
  collectFiles_typeDispatch.2.1 [DBValue.vInt 5, DBValue.vString "hello"]
    (DBValue.vString "hello") (by rfl)

theorem inv_addCypher (e : ExecutionSteps) (h : e.Inv) (c : List String) :
    (e.addCypher c).Inv := by
  obtain ⟨hchain, hcmd⟩ := h
  rw [ExecutionSteps.addCypher]
  by_cases hc : c.isEmpty
  · simpa [hc] using ⟨hchain, hcmd⟩
  · simp only [hc, Bool.false_eq_true, if_false]
    cases he : e.getLast? with
    | none =>
        have : e = [] := List.getLast?_eq_none_iff.mp he
        subst this
        refine ⟨by simp, ?_⟩
        intro s hs args hargs
        simp at hs
        subst hs
        cases hargs
    | some last =>
        cases last with
        | cypher buf =>
            have hsplit : e.dropLast ++ [ExecutionStep.cypher buf] = e :=
              List.dropLast_append_getLast? _ he
            constructor
            · rw [← hsplit] at hchain
              rw [List.chain'_append] at hchain ⊢
              refine ⟨hchain.1, List.chain'_singleton _, ?_⟩
              intro x hx y hy
              simp only [List.head?_cons, Option.mem_def, Option.some.injEq] at hy
              subst hy
              exact hchain.2.2 x hx (ExecutionStep.cypher buf) rfl
            · intro s hs args hargs
              rcases List.mem_append.mp hs with hs | hs
              · exact hcmd s ((List.dropLast_sublist e).mem hs) args hargs
              · simp at hs
                subst hs
                cases hargs
        | command cargs =>
            constructor
            · rw [List.chain'_append]
              refine ⟨hchain, List.chain'_singleton _, ?_⟩
              intro x hx y hy
              rw [he] at hx
              simp only [Option.mem_def, Option.some.injEq] at hx
              subst hx
              intro hcontra
              simp [ExecutionStep.isCypher] at hcontra
            · intro s hs args hargs
              rcases List.mem_append.mp hs with hs | hs
              · exact hcmd s hs args hargs
              · simp at hs
                subst hs
                cases hargs

theorem inv_addCommand (e : ExecutionSteps) (h : e.Inv) (args : List String) :
    (e.addCommand args).Inv := by
  obtain ⟨hchain, hcmd⟩ := h
  rw [ExecutionSteps.addCommand]
  by_cases ha : args.isEmpty
  · simpa [ha] using ⟨hchain, hcmd⟩
  · simp only [ha, Bool.false_eq_true, if_false]
    constructor
    · rw [List.chain'_append]
      refine ⟨hchain, List.chain'_singleton _, ?_⟩
      intro x hx y hy
      simp only [List.head?_cons, Option.mem_def, Option.some.injEq] at hy
      subst hy
      intro hcontra
      obtain ⟨-, hcontra2⟩ := hcontra
      simp [ExecutionStep.isCypher] at hcontra2
    · intro s hs args2 hargs
      rcases List.mem_append.mp hs with hs | hs
      · exact hcmd s hs args2 hargs
      · simp at hs
        subst hs
        cases hargs
        exact fun hnil => by simp [hnil] at ha

theorem inv_applyOps (ops : List StepOp) :
    ∀ e : ExecutionSteps, e.Inv → (e.applyOps ops).Inv := by
  induction ops with
  | nil => intro e h; exact h
  | cons op rest ih =>
      intro e h
      cases op with
      | addCypher c => exact ih _ (inv_addCypher e h c)
      | addCommand a => exact ih _ (inv_addCommand e h a)

/-- C9: starting from the empty step sequence, any sequence of
`AddCypher` and `AddCommand` calls leaves no two adjacent cypher steps
and only command steps with non-empty argument vectors; `AddCypher`
without arguments and `AddCommand` with an empty argument vector leave
the sequence unchanged. -/
theorem executionSteps_invariant :
    (∀ ops : List StepOp, (ExecutionSteps.applyOps [] ops).Inv) ∧
    (∀ e : ExecutionSteps, e.addCypher [] = e) ∧
    (∀ e : ExecutionSteps, e.addCommand [] = e) := by
  refine ⟨fun ops => inv_applyOps ops [] ⟨List.chain'_nil, by simp⟩,
    fun e => by simp [ExecutionSteps.addCypher],
    fun e => by simp [ExecutionSteps.addCommand]⟩

/-- Counterexample for C8: a configuration declaring an auxiliary folder
named `snapshots` passes `validateFoldersAndBatches` — the validation has
no reserved-name check, only the empty-name check. -/
theorem validate_accepts_snapshots_folder :
    Config.validateFoldersAndBatches cfgSnapshotsFolder = Except.ok () := by
  rfl

theorem firstError_empty_folder_name (schemaFolderName : String)
    (l : List (String × Option FolderDetail)) (d : Option FolderDetail)
    (h : ("", d) ∈ l) :
    ∃ e, firstError (validateFolderEntry schemaFolderName) l =
      Except.error e := by
  induction l with
  | nil => cases h
  | cons entry rest ih =>
      rcases List.mem_cons.mp h with h | h
      · refine ⟨"name of folder in Planner.Folders can\x27t be an empty string", ?_⟩
        rw [firstError, ← h]
        rfl
      · cases hcheck : validateFolderEntry schemaFolderName entry with
        | error e => exact ⟨e, by rw [firstError, hcheck]⟩
        | ok u =>
            cases u
            obtain ⟨e, he⟩ := ih h
            exact ⟨e, by rw [firstError, hcheck, he]⟩

/-- C8 (amended): configuration validation fails for every configuration
declaring an auxiliary folder with an empty name; a folder named
`snapshots` is not rejected (see the counterexample above). -/
theorem validate_rejects_empty_folder_name (c : Config)
    (d : Option FolderDetail) (h : ("", d) ∈ c.Planner.Folders) :
    ∃ e, Config.validateFoldersAndBatches c = Except.error e := by
  obtain ⟨e, he⟩ :=
    firstError_empty_folder_name c.Planner.SchemaFolder.FolderName
      c.Planner.Folders d h
  exact ⟨e, by rw [Config.validateFoldersAndBatches, he]⟩

/-- Witness for the amended C8: the empty-named folder is rejected. -/
theorem validate_rejects_empty_folder_name_witness :
    ∃ e, Config.validateFoldersAndBatches cfgEmptyFolderName =
      Except.error e :=
  validate_rejects_empty_folder_name cfgEmptyFolderName none (by
    simp [cfgEmptyFolderName])

/-- C5 (failing input): the compact display form of a database model
whose folder-version records exactly three timestamps already carries
the summary string; the code emits it whenever the count is at least
three (`executedCnt >= limitFiles`), and then glues it to the first
element without a comma, so the claimed only-above-three rule fails at
exactly three. -/
theorem databaseModel_string_three_files :
    DatabaseModel.str [("schema", [⟨⟨1, 0, 0⟩, [2000, 1000, 1500]⟩])] =
      "\x7b\"schema\":\x7b\"1.0.0\":[\"... 0 more\"1000,1500,2000]\x7d\x7d" := by
  rfl

theorem scanFolderAux_ok (dirPath : String) (files : List MigrationFile) :
    ∀ acc s, scanFolderAux dirPath acc files = Except.ok s →
      s.Up = acc.Up ++ files.filter (fun f => !f.IsDowngrade) ∧
      s.Down = acc.Down ++ files.filter (fun f => f.IsDowngrade) := by
  induction files with
  | nil =>
      intro acc s h
      rw [scanFolderAux] at h
      cases h
      simp
  | cons mf rest ih =>
      intro acc s h
      rw [scanFolderAux] at h
      by_cases hdir : mf.IsDowngrade
      · simp only [hdir, if_true] at h
        by_cases hdup : acc.Down.any (fun v => v.Timestamp == mf.Timestamp)
        · rw [if_pos hdup] at h; cases h
        · rw [if_neg hdup] at h
          obtain ⟨h1, h2⟩ := ih _ s h
          simp only [List.filter_cons, hdir, Bool.not_true, if_true] at h1 h2 ⊢
          simp only [h1, h2]
          simp
      · simp only [hdir, Bool.false_eq_true, if_false] at h
        by_cases hdup : acc.Up.any (fun v => v.Timestamp == mf.Timestamp)
        · rw [if_pos hdup] at h; cases h
        · rw [if_neg hdup] at h
          obtain ⟨h1, h2⟩ := ih _ s h
          simp only [List.filter_cons, hdir, Bool.not_false, if_true,
            Bool.false_eq_true, if_false] at h1 h2 ⊢
          simp only [h1, h2]
          simp

theorem scanFolderAux_nodup (dirPath : String) (files : List MigrationFile) :
    ∀ acc s, scanFolderAux dirPath acc files = Except.ok s →
      (acc.Up.map MigrationFile.Timestamp).Nodup →
      (acc.Down.map MigrationFile.Timestamp).Nodup →
      (s.Up.map MigrationFile.Timestamp).Nodup ∧
        (s.Down.map MigrationFile.Timestamp).Nodup := by
  induction files with
  | nil =>
      intro acc s h hu hd
      rw [scanFolderAux] at h
      cases h
      exact ⟨hu, hd⟩
  | cons mf rest ih =>
      intro acc s h hu hd
      rw [scanFolderAux] at h
      by_cases hdir : mf.IsDowngrade
      · simp only [hdir, if_true] at h
        by_cases hdup : acc.Down.any (fun v => v.Timestamp == mf.Timestamp)
        · rw [if_pos hdup] at h; cases h
        · rw [if_neg hdup] at h
          refine ih _ s h hu ?_
          have hnotin : mf.Timestamp ∉ acc.Down.map MigrationFile.Timestamp := by
            intro hmem
            obtain ⟨v, hv, hveq⟩ := List.mem_map.mp hmem
            exact hdup (List.any_eq_true.mpr ⟨v, hv, by simp [hveq]⟩)
          rw [List.map_append, List.map_singleton]
          exact List.Nodup.append hd (List.nodup_singleton _)
            (List.disjoint_singleton.mpr hnotin)
      · simp only [hdir, Bool.false_eq_true, if_false] at h
        by_cases hdup : acc.Up.any (fun v => v.Timestamp == mf.Timestamp)
        · rw [if_pos hdup] at h; cases h
        · rw [if_neg hdup] at h
          refine ih _ s h ?_ hd
          have hnotin : mf.Timestamp ∉ acc.Up.map MigrationFile.Timestamp := by
            intro hmem
            obtain ⟨v, hv, hveq⟩ := List.mem_map.mp hmem
            exact hdup (List.any_eq_true.mpr ⟨v, hv, by simp [hveq]⟩)
          rw [List.map_append, List.map_singleton]
          exact List.Nodup.append hu (List.nodup_singleton _)
            (List.disjoint_singleton.mpr hnotin)

theorem checkUpDownPairs_sound :
    ∀ up rev : List MigrationFile, up.length = rev.length →
      checkUpDownPairs up rev = Except.ok () →
      up.map MigrationFile.Timestamp = rev.map MigrationFile.Timestamp := by
  intro up
  induction up with
  | nil =>
      intro rev hlen _
      have : rev = [] := List.eq_nil_of_length_eq_zero hlen.symm
      simp [this]
  | cons u us ih =>
      intro rev hlen h
      cases rev with
      | nil => simp at hlen
      | cons r rs =>
          rw [checkUpDownPairs] at h
          by_cases heq : u.Timestamp == r.Timestamp
          · rw [if_pos heq] at h
            have := ih rs (by simpa using hlen) h
            simp only [List.map_cons, this, List.cons.injEq]
            exact ⟨by simpa using heq, trivial⟩
          · rw [if_neg heq] at h; cases h

theorem scanUpDown_ok_facts (dirPath : String) (files : List MigrationFile)
    (s : MigrationScripts)
    (h : scanUpDownTypeFolder dirPath files = Except.ok s) :
    s.Up.length = s.Down.length ∧
    s.Up.map MigrationFile.Timestamp =
      (s.Down.map MigrationFile.Timestamp).reverse ∧
    (s.Up.map MigrationFile.Timestamp).Nodup ∧
    (s.Down.map MigrationFile.Timestamp).Nodup ∧
    List.Perm s.Up (files.filter (fun f => !f.IsDowngrade)) ∧
    List.Perm s.Down (files.filter (fun f => f.IsDowngrade)) := by
  rw [scanUpDownTypeFolder] at h
  cases hsf : scanFolder dirPath files with
  | error e => rw [hsf] at h; cases h
  | ok s0 =>
      rw [hsf] at h
      simp only at h
      by_cases hlen : s0.Up.length ≠ s0.Down.length
      · rw [if_pos hlen] at h; cases h
      · rw [if_neg hlen] at h
        push_neg at hlen
        cases hcp : checkUpDownPairs s0.Up s0.Down.reverse with
        | error e => rw [hcp] at h; cases h
        | ok u =>
            cases u
            rw [hcp] at h
            cases h
            rw [scanFolder] at hsf
            cases haux : scanFolderAux dirPath ⟨[], []⟩ files with
            | error e => rw [haux] at hsf; cases hsf
            | ok s1 =>
                rw [haux] at hsf
                cases hsf
                obtain ⟨h1, h2⟩ := scanFolderAux_ok dirPath files _ s1 haux
                obtain ⟨hn1, hn2⟩ :=
                  scanFolderAux_nodup dirPath files _ s1 haux (by simp) (by simp)
                simp only [List.nil_append] at h1 h2
                have hpu : List.Perm (MigrationScripts.sortUp s1.Up) s1.Up :=
                  sortBy_perm _ _
                have hpd : List.Perm (MigrationScripts.sortDown s1.Down) s1.Down :=
                  sortBy_perm _ _
                refine ⟨hlen, ?_, ?_, ?_, ?_, ?_⟩
                · have := checkUpDownPairs_sound _ _ (by simpa using hlen) hcp
                  simpa [List.map_reverse] using this
                · exact ((hpu.map MigrationFile.Timestamp).symm).nodup hn1
                · exact ((hpd.map MigrationFile.Timestamp).symm).nodup hn2
                · show List.Perm (MigrationScripts.sortUp s1.Up) _
                  rw [h1]
                  exact sortBy_perm _ _
                · show List.Perm (MigrationScripts.sortDown s1.Down) _
                  rw [h2]
                  exact sortBy_perm _ _

/-- C4: every `up_down` folder directory the scanner accepts has as many
up as down files with equal multisets of timestamps, each up timestamp
matched by exactly one down timestamp; a directory whose up and down
timestamp multisets differ never yields a catalog entry: scanning fails
with an error. -/
theorem scanUpDown_pairing :
    (∀ (dirPath : String) (files : List MigrationFile)
        (s : MigrationScripts),
        scanUpDownTypeFolder dirPath files = Except.ok s →
        s.Up.length = s.Down.length ∧
        Multiset.ofList (s.Up.map MigrationFile.Timestamp) =
          Multiset.ofList (s.Down.map MigrationFile.Timestamp) ∧
        (s.Up.map MigrationFile.Timestamp).Nodup ∧
        (s.Down.map MigrationFile.Timestamp).Nodup ∧
        ∀ t ∈ s.Up.map MigrationFile.Timestamp,
          (s.Down.map MigrationFile.Timestamp).count t = 1) ∧
    (∀ (dirPath : String) (files : List MigrationFile),
        Multiset.ofList
            ((files.filter (fun f => !f.IsDowngrade)).map
              MigrationFile.Timestamp) ≠
          Multiset.ofList
            ((files.filter (fun f => f.IsDowngrade)).map
              MigrationFile.Timestamp) →
        ∃ e, scanUpDownTypeFolder dirPath files = Except.error e) := by
  have hperm : ∀ (dirPath : String) (files : List MigrationFile)
      (s : MigrationScripts),
      scanUpDownTypeFolder dirPath files = Except.ok s →
      Multiset.ofList (s.Up.map MigrationFile.Timestamp) =
        Multiset.ofList (s.Down.map MigrationFile.Timestamp) := by
    intro dirPath files s h
    obtain ⟨-, hrev, -, -, -, -⟩ := scanUpDown_ok_facts dirPath files s h
    rw [hrev]
    exact Multiset.coe_eq_coe.mpr (List.reverse_perm _)
  constructor
  · intro dirPath files s h
    obtain ⟨hlen, hrev, hn1, hn2, -, -⟩ := scanUpDown_ok_facts dirPath files s h
    refine ⟨hlen, hperm dirPath files s h, hn1, hn2, ?_⟩
    intro t ht
    have htd : t ∈ s.Down.map MigrationFile.Timestamp := by
      rw [hrev] at ht
      exact List.mem_reverse.mp ht
    exact List.count_eq_one_of_mem hn2 htd
  · intro dirPath files hne
    cases hres : scanUpDownTypeFolder dirPath files with
    | error e => exact ⟨e, rfl⟩
    | ok s =>
        exfalso
        obtain ⟨-, -, -, -, hp1, hp2⟩ := scanUpDown_ok_facts dirPath files s hres
        apply hne
        have e1 : Multiset.ofList
            ((files.filter (fun f => !f.IsDowngrade)).map MigrationFile.Timestamp) =
            Multiset.ofList (s.Up.map MigrationFile.Timestamp) :=
          Multiset.coe_eq_coe.mpr ((hp1.map MigrationFile.Timestamp).symm)
        have e2 : Multiset.ofList (s.Up.map MigrationFile.Timestamp) =
            Multiset.ofList (s.Down.map MigrationFile.Timestamp) :=
          hperm dirPath files s hres
        have e3 : Multiset.ofList (s.Down.map MigrationFile.Timestamp) =
            Multiset.ofList
              ((files.filter (fun f => f.IsDowngrade)).map MigrationFile.Timestamp) :=
          Multiset.coe_eq_coe.mpr (hp2.map MigrationFile.Timestamp)
        exact e1.trans (e2.trans e3)

/-- Witness for C4: a directory with one matched up/down pair is
accepted, with singleton timestamp lists on both sides. -/
theorem scanUpDown_pairing_witness :
    (⟨[⟨"schema", "d/200_up_a.cypher", FileType.Cypher, 200, false, false⟩],
      [⟨"schema", "d/200_down_a.cypher", FileType.Cypher, 200, true, false⟩]⟩ :
        MigrationScripts).Up.length =
      (⟨[⟨"schema", "d/200_up_a.cypher", FileType.Cypher, 200, false, false⟩],
        [⟨"schema", "d/200_down_a.cypher", FileType.Cypher, 200, true, false⟩]⟩ :
          MigrationScripts).Down.length ∧
    Multiset.ofList
        ((⟨[⟨"schema", "d/200_up_a.cypher", FileType.Cypher, 200, false, false⟩],
           [⟨"schema", "d/200_down_a.cypher", FileType.Cypher, 200, true, false⟩]⟩ :
             MigrationScripts).Up.map MigrationFile.Timestamp) =
      Multiset.ofList
        ((⟨[⟨"schema", "d/200_up_a.cypher", FileType.Cypher, 200, false, false⟩],
           [⟨"schema", "d/200_down_a.cypher", FileType.Cypher, 200, true, false⟩]⟩ :
             MigrationScripts).Down.map MigrationFile.Timestamp) ∧
    ((⟨[⟨"schema", "d/200_up_a.cypher", FileType.Cypher, 200, false, false⟩],
       [⟨"schema", "d/200_down_a.cypher", FileType.Cypher, 200, true, false⟩]⟩ :
         MigrationScripts).Up.map MigrationFile.Timestamp).Nodup ∧
    ((⟨[⟨"schema", "d/200_up_a.cypher", FileType.Cypher, 200, false, false⟩],
       [⟨"schema", "d/200_down_a.cypher", FileType.Cypher, 200, true, false⟩]⟩ :
         MigrationScripts).Down.map MigrationFile.Timestamp).Nodup ∧
    ∀ t ∈ (⟨[⟨"schema", "d/200_up_a.cypher", FileType.Cypher, 200, false, false⟩],
            [⟨"schema", "d/200_down_a.cypher", FileType.Cypher, 200, true, false⟩]⟩ :
              MigrationScripts).Up.map MigrationFile.Timestamp,
      ((⟨[⟨"schema", "d/200_up_a.cypher", FileType.Cypher, 200, false, false⟩],
         [⟨"schema", "d/200_down_a.cypher", FileType.Cypher, 200, true, false⟩]⟩ :
           MigrationScripts).Down.map MigrationFile.Timestamp).count t = 1 :=
  scanUpDown_pairing.1 "d"
    [⟨"schema", "d/200_up_a.cypher", FileType.Cypher, 200, false, false⟩,
     ⟨"schema", "d/200_down_a.cypher", FileType.Cypher, 200, true, false⟩]
    ⟨[⟨"schema", "d/200_up_a.cypher", FileType.Cypher, 200, false, false⟩],
     [⟨"schema", "d/200_down_a.cypher", FileType.Cypher, 200, true, false⟩]⟩
    (by rfl)

theorem SemVer.nlt_trans {a b c : SemVer} (h1 : SemVer.lt b a = false)
    (h2 : SemVer.lt c b = false) : SemVer.lt c a = false := by
  obtain ⟨a1, a2, a3⟩ := a
  obtain ⟨b1, b2, b3⟩ := b
  obtain ⟨c1, c2, c3⟩ := c
  rw [Bool.eq_false_iff] at h1 h2 ⊢
  simp only [ne_eq, SemVer.lt, Bool.or_eq_true, Bool.and_eq_true,
    decide_eq_true_eq, beq_iff_eq] at h1 h2 ⊢
  omega

theorem sortByVersion_strict (lf : List LocalVersionFolder)
    (hnd : (lf.map LocalVersionFolder.Version).Nodup) :
    (LocalFolders.sortByVersion lf).Pairwise
      (fun a b => SemVer.lt a.Version b.Version = true) := by
  have hle : (LocalFolders.sortByVersion lf).Pairwise
      (fun a b => (!(SemVer.lt b.Version a.Version)) = true) := by
    refine sortBy_pairwise _ ?_ ?_ lf
    · intro a b h
      have h' : SemVer.lt b.Version a.Version = true := by simpa using h
      simp [SemVer.lt_asymm h']
    · intro a b c h1 h2
      have h1' : SemVer.lt b.Version a.Version = false := by simpa using h1
      have h2' : SemVer.lt c.Version b.Version = false := by simpa using h2
      simp [SemVer.nlt_trans h1' h2']
  have hperm : List.Perm (lf.map LocalVersionFolder.Version)
      ((LocalFolders.sortByVersion lf).map LocalVersionFolder.Version) :=
    ((sortBy_perm _ lf).map LocalVersionFolder.Version).symm
  have hnd2 : ((LocalFolders.sortByVersion lf).map
      LocalVersionFolder.Version).Nodup := hperm.nodup hnd
  have hne : (LocalFolders.sortByVersion lf).Pairwise
      (fun a b => a.Version ≠ b.Version) := List.pairwise_map.mp hnd2
  refine (hle.and hne).imp ?_
  rintro a b ⟨h1, h2⟩
  rw [Bool.not_eq_true'] at h1
  exact SemVer.lt_of_not_lt_of_ne h1 h2

theorem foldl_planStep_pairwise (cfg : Config) (batchFolders : List String)
    (dbm : DatabaseModel) (tv : Option PlanTarget) (batch : String) :
    ∀ (l : List LocalVersionFolder) (s : List VersionPlan),
      s.Pairwise (fun p q => SemVer.lt p.version q.version = true) →
      l.Pairwise (fun a b => SemVer.lt a.Version b.Version = true) →
      (∀ p ∈ s, ∀ x ∈ l, SemVer.lt p.version x.Version = true) →
      (List.foldl (planStep cfg batchFolders dbm tv batch) s l).Pairwise
        (fun p q => SemVer.lt p.version q.version = true) := by
  intro l
  induction l with
  | nil => intro s hs _ _; exact hs
  | cons x xs ih =>
      intro s hs hl hcross
      rcases List.pairwise_cons.mp hl with ⟨hx, hxs⟩
      rw [List.foldl_cons]
      rcases hstep : planStep cfg batchFolders dbm tv batch s x with _ | _
      all_goals rw [planStep] at hstep
      all_goals cases hsq : snapQualify dbm tv batch x with
        | some snap =>
            rw [hsq] at hstep
            refine ih _ ?_ hxs ?_
            · rw [← hstep]; exact List.pairwise_singleton _ _
            · intro p hp y hy
              rw [← hstep] at hp
              simp only [List.mem_singleton] at hp
              subst hp
              exact hx y hy
        | none =>
            rw [hsq] at hstep
            by_cases hcm : (planVersionScripts cfg batchFolders dbm tv x).containsMigrations
            · rw [if_pos hcm] at hstep
              refine ih _ ?_ hxs ?_
              · rw [← hstep]
                rw [List.pairwise_append]
                refine ⟨hs, List.pairwise_singleton _ _, ?_⟩
                intro p hp q hq
                simp only [List.mem_singleton] at hq
                subst hq
                exact hcross p hp x (List.mem_cons_self x xs)
              · intro p hp y hy
                rw [← hstep] at hp
                rcases List.mem_append.mp hp with hp | hp
                · exact hcross p hp y (List.mem_cons_of_mem x hy)
                · simp only [List.mem_singleton] at hp
                  subst hp
                  exact hx y hy
            · rw [if_neg hcm] at hstep
              refine ih _ ?_ hxs ?_
              · rw [← hstep]; exact hs
              · intro p hp y hy
                rw [← hstep] at hp
                exact hcross p hp y (List.mem_cons_of_mem x hy)

theorem foldl_planStep_no_reset (cfg : Config) (batchFolders : List String)
    (dbm : DatabaseModel) (tv : Option PlanTarget) (batch : String) :
    ∀ (l : List LocalVersionFolder) (s : List VersionPlan),
      (∀ x ∈ l, snapQualify dbm tv batch x = none) →
      ∃ E, List.foldl (planStep cfg batchFolders dbm tv batch) s l = s ++ E ∧
        ∀ p ∈ E, ∃ x ∈ l, p.version = x.Version := by
  intro l
  induction l with
  | nil => intro s _; exact ⟨[], by simp, by simp⟩
  | cons x xs ih =>
      intro s hnone
      have hx : snapQualify dbm tv batch x = none :=
        hnone x (List.mem_cons_self x xs)
      have hxs : ∀ y ∈ xs, snapQualify dbm tv batch y = none :=
        fun y hy => hnone y (List.mem_cons_of_mem x hy)
      rw [List.foldl_cons, planStep, hx]
      by_cases hcm : (planVersionScripts cfg batchFolders dbm tv x).containsMigrations
      · rw [if_pos hcm]
        obtain ⟨E, hE, hEver⟩ := ih (s ++ [⟨planVersionScripts cfg batchFolders dbm tv x, x.Version⟩]) hxs
        refine ⟨⟨planVersionScripts cfg batchFolders dbm tv x, x.Version⟩ :: E, ?_, ?_⟩
        · rw [hE]; simp
        · intro p hp
          rcases List.mem_cons.mp hp with hp | hp
          · subst hp; exact ⟨x, List.mem_cons_self x xs, rfl⟩
          · obtain ⟨y, hy, hyv⟩ := hEver p hp
            exact ⟨y, List.mem_cons_of_mem x hy, hyv⟩
      · rw [if_neg hcm]
        obtain ⟨E, hE, hEver⟩ := ih s hxs
        refine ⟨E, hE, ?_⟩
        intro p hp
        obtain ⟨y, hy, hyv⟩ := hEver p hp
        exact ⟨y, List.mem_cons_of_mem x hy, hyv⟩

theorem upCalls_pairwise (P : List VersionPlan)
    (h : P.Pairwise (fun p q => SemVer.lt p.version q.version = true)) :
    (upCalls P).Pairwise VersionTsLe := by
  rw [upCalls, List.pairwise_flatten]
  constructor
  · intro bl hbl
    obtain ⟨p, hp, rfl⟩ := List.mem_map.mp hbl
    rw [List.pairwise_map]
    have hsorted : (MigrationScripts.sortUp p.scripts.Up).Pairwise
        (fun a b => decide (a.Timestamp ≤ b.Timestamp) = true) := by
      refine sortBy_pairwise _ ?_ ?_ _
      · intro a b hab
        simp only [decide_eq_false_iff_not, not_le] at hab
        simp [le_of_lt hab]
      · intro a b c h1 h2
        simp only [decide_eq_true_eq] at h1 h2 ⊢
        exact le_trans h1 h2
    refine hsorted.imp ?_
    intro a b hab
    simp only [decide_eq_true_eq] at hab
    exact Or.inr ⟨rfl, hab⟩
  · rw [List.pairwise_map]
    refine h.imp ?_
    intro p q hpq a ha b hb
    obtain ⟨fa, -, rfl⟩ := List.mem_map.mp ha
    obtain ⟨fb, -, rfl⟩ := List.mem_map.mp hb
    exact Or.inl hpq

theorem downCalls_pairwise (P : List VersionPlan)
    (h : P.Pairwise (fun p q => SemVer.lt p.version q.version = true)) :
    (downCalls P).Pairwise VersionTsGe := by
  rw [downCalls, List.pairwise_flatten]
  constructor
  · intro bl hbl
    obtain ⟨p, hp, rfl⟩ := List.mem_map.mp hbl
    rw [List.pairwise_map]
    have hsorted : (MigrationScripts.sortDown p.scripts.Down).Pairwise
        (fun a b => decide (b.Timestamp ≤ a.Timestamp) = true) := by
      refine sortBy_pairwise _ ?_ ?_ _
      · intro a b hab
        simp only [decide_eq_false_iff_not, not_le] at hab
        simp [le_of_lt hab]
      · intro a b c h1 h2
        simp only [decide_eq_true_eq] at h1 h2 ⊢
        exact le_trans h2 h1
    refine hsorted.imp ?_
    intro a b hab
    simp only [decide_eq_true_eq] at hab
    exact Or.inr ⟨rfl, hab⟩
  · rw [List.pairwise_map, List.pairwise_reverse]
    refine h.imp ?_
    intro p q hpq a ha b hb
    obtain ⟨fa, -, rfl⟩ := List.mem_map.mp ha
    obtain ⟨fb, -, rfl⟩ := List.mem_map.mp hb
    exact Or.inl hpq

theorem upCalls_append (a b : List VersionPlan) :
    upCalls (a ++ b) = upCalls a ++ upCalls b := by
  simp [upCalls]

theorem downCalls_append (a b : List VersionPlan) :
    downCalls (a ++ b) = downCalls b ++ downCalls a := by
  simp [downCalls]

theorem mem_upCalls {c : MigrationFile × SemVer} {P : List VersionPlan}
    (h : c ∈ upCalls P) : ∃ p ∈ P, c.2 = p.version ∧ c.1 ∈ p.scripts.Up := by
  rw [upCalls] at h
  obtain ⟨bl, hbl, hc⟩ := List.mem_flatten.mp h
  obtain ⟨p, hp, rfl⟩ := List.mem_map.mp hbl
  obtain ⟨f, hf, rfl⟩ := List.mem_map.mp hc
  exact ⟨p, hp, rfl, (sortBy_perm _ p.scripts.Up).mem_iff.mp hf⟩

theorem mem_downCalls {c : MigrationFile × SemVer} {P : List VersionPlan}
    (h : c ∈ downCalls P) : ∃ p ∈ P, c.2 = p.version ∧ c.1 ∈ p.scripts.Down := by
  rw [downCalls] at h
  obtain ⟨bl, hbl, hc⟩ := List.mem_flatten.mp h
  obtain ⟨p, hp, rfl⟩ := List.mem_map.mp hbl
  obtain ⟨f, hf, rfl⟩ := List.mem_map.mp hc
  exact ⟨p, List.mem_reverse.mp hp, rfl,
    (sortBy_perm _ p.scripts.Down).mem_iff.mp hf⟩

/-- C3: when the database records no applied timestamp at all and the
catalog (here given sorted, with the scanner invariant of strictly
increasing versions) has a snapshot for the chosen batch at `lk` meeting
the target condition — target nil, or version strictly below the target,
or equal with zero revision — while no later entry does, a successful
`Plan` emits exactly one upgrade call, the snapshot at the version of
`lk`, in place of all per-file work at and below that version: the call
sequence starts with the snapshot and every other call is for a strictly
higher version. -/
theorem Plan_snapshot_shortCircuit (cfg : Config)
    (pre post : List LocalVersionFolder) (lk : LocalVersionFolder)
    (dbm : DatabaseModel) (targetVersion : Option TargetVersion)
    (batch : String) (snap : MigrationFile)
    (t : List (MigrationFile × SemVer))
    (hsorted : (pre ++ lk :: post).Pairwise
      (fun a b => SemVer.lt a.Version b.Version = true))
    (hnover : dbm.HasAnyVersion = false)
    (hsnap : lk.Snapshots.lookup batch = some snap)
    (hcond : snapTargetCond (normalizeTarget targetVersion) lk.Version = true)
    (hpost : ∀ x ∈ post,
      snapQualify dbm (normalizeTarget targetVersion) batch x = none)
    (h : Plan cfg (pre ++ lk :: post) dbm targetVersion batch = Except.ok t) :
    ∃ rest, t = (snap, lk.Version) :: rest ∧
      ∀ c ∈ rest, SemVer.lt lk.Version c.2 = true := by
  have hsortid : LocalFolders.sortByVersion (pre ++ lk :: post) =
      pre ++ lk :: post := by
    refine sortBy_eq_self _ _ (hsorted.imp ?_)
    intro a b hab
    simp [SemVer.lt_asymm hab]
  have hlkpost : ∀ x ∈ post, SemVer.lt lk.Version x.Version = true := by
    have h2 := (List.pairwise_append.mp hsorted).2.1
    exact (List.pairwise_cons.mp h2).1
  rw [Plan] at h
  cases hrb : resolveBatch cfg batch with
  | error e => rw [hrb] at h; cases h
  | ok bf =>
      rw [hrb] at h
      simp only at h
      rw [hsortid] at h
      cases hrange : targetOutOfRange (pre ++ lk :: post)
          (normalizeTarget targetVersion) with
      | true => rw [hrange] at h; simp at h
      | false =>
          rw [hrange] at h
          rw [if_neg (by simp)] at h
          cases h
          have hq : snapQualify dbm (normalizeTarget targetVersion) batch lk =
              some snap := by
            rw [snapQualify, hnover, hsnap]
            simp [hcond]
          have hsplit : buildPlans cfg bf dbm (normalizeTarget targetVersion)
              batch (pre ++ lk :: post) =
              List.foldl (planStep cfg bf dbm (normalizeTarget targetVersion)
                batch) [⟨⟨[snap], []⟩, lk.Version⟩] post := by
            rw [buildPlans, List.foldl_append, List.foldl_cons, planStep, hq]
          obtain ⟨E, hE, hEver⟩ := foldl_planStep_no_reset cfg bf dbm
            (normalizeTarget targetVersion) batch post
            [⟨⟨[snap], []⟩, lk.Version⟩] hpost
          rw [hsplit, hE, upCalls_append, downCalls_append]
          have hup1 : upCalls [⟨⟨[snap], []⟩, lk.Version⟩] =
              [(snap, lk.Version)] := rfl
          have hdown1 : downCalls [⟨⟨[snap], []⟩, lk.Version⟩] = [] := rfl
          rw [hup1, hdown1]
          refine ⟨upCalls E ++ (downCalls E ++ []), by simp, ?_⟩
          intro c hc
          have hcv : ∃ p ∈ E, c.2 = p.version := by
            rcases List.mem_append.mp hc with hc | hc
            · obtain ⟨p, hp, hpv, -⟩ := mem_upCalls hc
              exact ⟨p, hp, hpv⟩
            · rw [List.append_nil] at hc
              obtain ⟨p, hp, hpv, -⟩ := mem_downCalls hc
              exact ⟨p, hp, hpv⟩
          obtain ⟨p, hp, hpv⟩ := hcv
          obtain ⟨x, hx, hxv⟩ := hEver p hp
          rw [hpv, hxv]
          exact hlkpost x hx

/-- Witness for C3: the two-version catalog with a snapshot at 1.0.0
planned from an empty database with no target: the snapshot replaces the
per-file work of 1.0.0 and the 1.0.1 work follows. -/
theorem Plan_snapshot_shortCircuit_witness :
    ∃ rest, ([(snapshotA, ⟨1, 0, 0⟩), (mfUpB, ⟨1, 0, 1⟩)] :
        List (MigrationFile × SemVer)) = (snapshotA, (⟨1, 0, 0⟩ : SemVer)) :: rest ∧
      ∀ c ∈ rest, SemVer.lt (⟨1, 0, 0⟩ : SemVer) c.2 = true :=
  Plan_snapshot_shortCircuit cfgSchemaOnly [] [folderB] folderA [] none
    "schema" snapshotA [(snapshotA, ⟨1, 0, 0⟩), (mfUpB, ⟨1, 0, 1⟩)]
    (by decide) (by rfl) (by rfl) (by rfl) (by decide) (by rfl)

theorem lookup_pair_mem {β} {l : List (String × β)} {k : String} {v : β}
    (h : l.lookup k = some v) : (k, v) ∈ l := by
  induction l with
  | nil => cases h
  | cons p rest ih =>
      rw [List.lookup] at h
      by_cases hk : k == p.1
      · simp only [hk] at h
        cases h
        have hk2 : k = p.1 := by simpa using hk
        subst hk2
        exact List.mem_cons_self p rest
      · rw [Bool.not_eq_true] at hk
        simp only [hk] at h
        exact List.mem_cons_of_mem p (ih h)

theorem planUpgrade_subset {up : List MigrationFile} {executed : Int → Bool}
    {targetCommit : Int} {f : MigrationFile}
    (h : f ∈ planUpgrade up executed targetCommit) : f ∈ up := by
  rw [planUpgrade] at h
  exact (List.mem_filter.mp h).1

theorem planDowngrade_subset {down : List MigrationFile}
    {executed : Int → Bool} {targetCommit : Int} {f : MigrationFile}
    (h : f ∈ planDowngrade down executed targetCommit) : f ∈ down := by
  rw [planDowngrade] at h
  exact (List.mem_filter.mp h).1

theorem planFolder_mem (folderName : String) (fv : SemVer)
    (scripts : MigrationScripts) (dbm : DatabaseModel)
    (tv : Option PlanTarget) (r : MigrationScripts)
    (h : planFolder folderName fv (some scripts) dbm tv = some r) :
    (∀ f ∈ r.Up, f ∈ scripts.Up) ∧ (∀ f ∈ r.Down, f ∈ scripts.Down) := by
  simp only [planFolder, Option.some.injEq] at h
  subst h
  constructor <;> intro f hf
  all_goals cases tv with
    | none =>
        by_cases hc : dbm.ContainsHigherVersion folderName fv
        · simp only [hc, if_true] at hf
          cases hf
        · simp only [hc, Bool.false_eq_true, if_false] at hf
          first
            | exact planUpgrade_subset hf
            | cases hf
    | some t =>
        by_cases hlt : SemVer.lt fv t.Version
        · simp only [hlt, if_true] at hf
          by_cases hc : dbm.ContainsHigherVersion folderName fv
          · simp only [hc, if_true] at hf
            cases hf
          · simp only [hc, Bool.false_eq_true, if_false] at hf
            first
              | exact planUpgrade_subset hf
              | cases hf
        · simp only [hlt, Bool.false_eq_true, if_false] at hf
          by_cases heq : fv = t.Version
          · simp only [heq, if_pos rfl] at hf
            first
              | exact planUpgrade_subset hf
              | exact planDowngrade_subset hf
          · simp only [heq, if_false] at hf
            first
              | exact planDowngrade_subset hf
              | cases hf

theorem snapQualify_lookup {dbm : DatabaseModel} {tv : Option PlanTarget}
    {batch : String} {x : LocalVersionFolder} {snap : MigrationFile}
    (h : snapQualify dbm tv batch x = some snap) :
    x.Snapshots.lookup batch = some snap := by
  rw [snapQualify] at h
  by_cases hv : dbm.HasAnyVersion
  · simp only [hv, if_true] at h
    cases h
  · simp only [hv, Bool.false_eq_true, if_false] at h
    cases hlk : x.Snapshots.lookup batch with
    | none => rw [hlk] at h; cases h
    | some s0 =>
        rw [hlk] at h
        by_cases hc : snapTargetCond tv x.Version
        · simp only [hc, if_true] at h
          exact h
        · simp only [hc, Bool.false_eq_true, if_false] at h
          cases h

theorem foldl_add_flags (dbm : DatabaseModel) (tv : Option PlanTarget)
    (lf : LocalVersionFolder)
    (hextra : ∀ p ∈ lf.ExtraFolders,
      (∀ f ∈ p.2.Up, f.IsDowngrade = false) ∧
      (∀ f ∈ p.2.Down, f.IsDowngrade = true)) :
    ∀ (bfs : List String) (acc : MigrationScripts),
      (∀ f ∈ acc.Up, f.IsDowngrade = false) →
      (∀ f ∈ acc.Down, f.IsDowngrade = true) →
      (∀ f ∈ (bfs.foldl (fun acc bf =>
          acc.add (planFolder bf lf.Version (lf.ExtraFolders.lookup bf) dbm tv))
          acc).Up, f.IsDowngrade = false) ∧
      (∀ f ∈ (bfs.foldl (fun acc bf =>
          acc.add (planFolder bf lf.Version (lf.ExtraFolders.lookup bf) dbm tv))
          acc).Down, f.IsDowngrade = true) := by
  intro bfs
  induction bfs with
  | nil => intro acc hu hd; exact ⟨hu, hd⟩
  | cons bf rest ih =>
      intro acc hu hd
      simp only [List.foldl_cons]
      cases hlk : lf.ExtraFolders.lookup bf with
      | none =>
          exact ih acc hu hd
      | some ms =>
          obtain ⟨hmu, hmd⟩ := hextra (bf, ms) (lookup_pair_mem hlk)
          obtain ⟨r, hr⟩ : ∃ r, planFolder bf lf.Version (some ms) dbm tv =
              some r := ⟨_, rfl⟩
          obtain ⟨hru, hrd⟩ := planFolder_mem _ _ _ _ _ _ hr
          rw [hr]
          refine ih _ ?_ ?_
          · intro f hf
            rcases List.mem_append.mp hf with hf | hf
            · exact hu f hf
            · exact hmu f (hru f hf)
          · intro f hf
            rcases List.mem_append.mp hf with hf | hf
            · exact hd f hf
            · exact hmd f (hrd f hf)

theorem planVersionScripts_flags (cfg : Config) (batchFolders : List String)
    (dbm : DatabaseModel) (tv : Option PlanTarget) (lf : LocalVersionFolder)
    (hwf : lf.WellFormed) :
    (∀ f ∈ (planVersionScripts cfg batchFolders dbm tv lf).Up,
      f.IsDowngrade = false) ∧
    (∀ f ∈ (planVersionScripts cfg batchFolders dbm tv lf).Down,
      f.IsDowngrade = true) := by
  obtain ⟨hwu, hwd, hextra, -⟩ := hwf
  obtain ⟨r, hr⟩ : ∃ r, planFolder cfg.Planner.SchemaFolder.FolderName
      lf.Version (some lf.SchemaFolder) dbm tv = some r := ⟨_, rfl⟩
  obtain ⟨hru, hrd⟩ := planFolder_mem _ _ _ _ _ _ hr
  rw [planVersionScripts]
  simp only [hr, Option.getD_some]
  refine foldl_add_flags dbm tv lf hextra batchFolders r ?_ ?_
  · intro f hf; exact hwu f (hru f hf)
  · intro f hf; exact hwd f (hrd f hf)

theorem foldl_planStep_flags (cfg : Config) (bf : List String)
    (dbm : DatabaseModel) (tv : Option PlanTarget) (batch : String) :
    ∀ (l : List LocalVersionFolder) (s : List VersionPlan),
      (∀ x ∈ l, x.WellFormed) →
      (∀ p ∈ s, (∀ f ∈ p.scripts.Up, f.IsDowngrade = false) ∧
        (∀ f ∈ p.scripts.Down, f.IsDowngrade = true)) →
      ∀ p ∈ List.foldl (planStep cfg bf dbm tv batch) s l,
        (∀ f ∈ p.scripts.Up, f.IsDowngrade = false) ∧
        (∀ f ∈ p.scripts.Down, f.IsDowngrade = true) := by
  intro l
  induction l with
  | nil => intro s _ hs; exact hs
  | cons x xs ih =>
      intro s hwf hs
      have hxwf := hwf x (List.mem_cons_self x xs)
      have hxswf : ∀ y ∈ xs, y.WellFormed :=
        fun y hy => hwf y (List.mem_cons_of_mem x hy)
      rw [List.foldl_cons]
      refine ih _ hxswf ?_
      rw [planStep]
      cases hsq : snapQualify dbm tv batch x with
      | some snap =>
          intro p hp
          simp only [List.mem_singleton] at hp
          subst hp
          constructor
          · intro f hf
            simp only [List.mem_singleton] at hf
            subst hf
            exact hxwf.2.2.2 (batch, f) (lookup_pair_mem (snapQualify_lookup hsq))
          · intro f hf
            cases hf
      | none =>
          by_cases hcm :
            (planVersionScripts cfg bf dbm tv x).containsMigrations
          · simp only [hcm, if_true]
            intro p hp
            rcases List.mem_append.mp hp with hp | hp
            · exact hs p hp
            · simp only [List.mem_singleton] at hp
              subst hp
              exact planVersionScripts_flags cfg bf dbm tv x hxwf
          · simp only [hcm, Bool.false_eq_true, if_false]
            exact hs

/-- Counterexample for C1: the lenient semver parsing of the scanner
maps the directories `v1.0` and `v1.0.0` to the same version 1.0.0, so a
catalog can hold two entries with equal versions.  On such a catalog
`Plan` succeeds with all three upgrade calls at version 1.0.0 in the
order of timestamps 1, 5, 2: two consecutive upgrade calls are not in
non-decreasing (version, timestamp) order, refuting the claim as stated
over every catalog.  (The violation does not depend on the tie order of
the unstable version sort: the other order of the two equal-version
entries yields timestamps 2, 1, 5, again not non-decreasing.) -/
theorem Plan_order_counterexample :
    Plan cfgSchemaOnly [dupFolderV10, dupFolderV100] [] none "schema" =
      Except.ok [(dupUpA, ⟨1, 0, 0⟩), (dupUpB, ⟨1, 0, 0⟩),
        (dupUpC, ⟨1, 0, 0⟩)] ∧
    dupUpA.IsDowngrade = false ∧ dupUpB.IsDowngrade = false ∧
    dupUpC.IsDowngrade = false ∧
    ¬ VersionTsLe (dupUpB, ⟨1, 0, 0⟩) (dupUpC, ⟨1, 0, 0⟩) := by
  refine ⟨rfl, rfl, rfl, rfl, ?_⟩
  simp only [VersionTsLe]
  decide

/-- C1 (amended): on every catalog with pairwise-distinct versions and
scanner-well-formed entries, whenever `Plan` succeeds the builder call
sequence is the upgrade calls (all on non-downgrade files) first, in
non-decreasing (version, timestamp) order, followed by the downgrade
calls (all on downgrade files) in non-increasing (version, timestamp)
order. -/
theorem Plan_upgrades_then_downgrades (cfg : Config)
    (lf : List LocalVersionFolder) (dbm : DatabaseModel)
    (targetVersion : Option TargetVersion) (batch : String)
    (t : List (MigrationFile × SemVer))
    (hnd : (lf.map LocalVersionFolder.Version).Nodup)
    (hwf : ∀ x ∈ lf, x.WellFormed)
    (h : Plan cfg lf dbm targetVersion batch = Except.ok t) :
    ∃ u d, t = u ++ d ∧
      (∀ c ∈ u, c.1.IsDowngrade = false) ∧
      (∀ c ∈ d, c.1.IsDowngrade = true) ∧
      u.Pairwise VersionTsLe ∧ d.Pairwise VersionTsGe := by
  rw [Plan] at h
  cases hrb : resolveBatch cfg batch with
  | error e => rw [hrb] at h; cases h
  | ok bf =>
      rw [hrb] at h
      simp only at h
      cases hrange : targetOutOfRange (LocalFolders.sortByVersion lf)
          (normalizeTarget targetVersion) with
      | true => rw [hrange] at h; simp at h
      | false =>
          rw [hrange] at h
          rw [if_neg (by simp)] at h
          cases h
          have hP : (buildPlans cfg bf dbm (normalizeTarget targetVersion)
              batch (LocalFolders.sortByVersion lf)).Pairwise
              (fun p q => SemVer.lt p.version q.version = true) := by
            refine foldl_planStep_pairwise cfg bf dbm _ batch
              (LocalFolders.sortByVersion lf) [] List.Pairwise.nil
              (sortByVersion_strict lf hnd) ?_
            intro p hp
            cases hp
          have hswf : ∀ x ∈ LocalFolders.sortByVersion lf, x.WellFormed :=
            fun x hx => hwf x ((sortBy_perm _ lf).mem_iff.mp hx)
          have hflags := foldl_planStep_flags cfg bf dbm
            (normalizeTarget targetVersion) batch
            (LocalFolders.sortByVersion lf) [] hswf (by intro p hp; cases hp)
          refine ⟨_, _, rfl, ?_, ?_, upCalls_pairwise _ hP,
            downCalls_pairwise _ hP⟩
          · intro c hc
            obtain ⟨p, hp, -, hcu⟩ := mem_upCalls hc
            exact (hflags p hp).1 c.1 hcu
          · intro c hc
            obtain ⟨p, hp, -, hcd⟩ := mem_downCalls hc
            exact (hflags p hp).2 c.1 hcd

/-- Witness for the amended C1: the two-version catalog with a snapshot,
planned from an empty database with no target on the schema batch. -/
theorem Plan_upgrades_then_downgrades_witness :
    ∃ u d, ([(snapshotA, ⟨1, 0, 0⟩), (mfUpB, ⟨1, 0, 1⟩)] :
        List (MigrationFile × SemVer)) = u ++ d ∧
      (∀ c ∈ u, c.1.IsDowngrade = false) ∧
      (∀ c ∈ d, c.1.IsDowngrade = true) ∧
      u.Pairwise VersionTsLe ∧ d.Pairwise VersionTsGe :=
  Plan_upgrades_then_downgrades cfgSchemaOnly [folderA, folderB] [] none
    "schema" [(snapshotA, ⟨1, 0, 0⟩), (mfUpB, ⟨1, 0, 1⟩)] (by decide)
    (by
      intro x hx
      rcases List.mem_cons.mp hx with h | h
      · subst h
        unfold LocalVersionFolder.WellFormed
        decide
      · rcases List.mem_cons.mp h with h | h
        · subst h
          unfold LocalVersionFolder.WellFormed
          decide
        · cases h)
    (by rfl)
